import Mathlib

/-!
Verification of a Brainfuck interpreter (src/main.rs) against its
natural-language specification.

The embedding mirrors the Rust source:
* `Instruction`, `CompiledCode`, `Interpreter` embed the data model;
* `right`, `left`, `increment`, `decrement`, `input`, `output` embed the
  per-instruction operations (panics become `Except.error`);
* `translateAux`/`translate` embed the translation loop in `main`
  (the `code.retain` filter followed by the stack-based scan);
* `step`/`run` embed the execution `while` loop in `main` (`run` takes
  explicit fuel; running out of fuel is reported as `timeout`, distinct
  from clean termination `done`).

Byte I/O is modelled by a list of pending input bytes and a list of
emitted output bytes carried in the interpreter state; reading a byte
truncates modulo 256 exactly as the source's `as u8` cast does.
-/

/-- `MEMORY_INIT_ALLOCATE` from the source: initial tape length. -/
def MEMORY_INIT_ALLOCATE : Nat := 1024

/-- `MEMORY_DYN_ALLOCATE` from the source: tape growth increment. -/
def MEMORY_DYN_ALLOCATE : Nat := 128

/-- The `Instruction` enum from the source. -/
inductive Instruction where
  | Right : Instruction
  | Left : Instruction
  | Increment : Instruction
  | Decrement : Instruction
  | Print : Instruction
  | Read : Instruction
  | BeginLoop : Nat → Instruction
  | EndLoop : Nat → Instruction
deriving DecidableEq

/-- `type CompiledCode = Vec<Instruction>` from the source. -/
abbrev CompiledCode := List Instruction

/-- Errors of the translation pass (the source panics with
"Unmatched ]" and "Unmatched ["). -/
inductive TranslateError where
  | UnmatchedCloseError : TranslateError
  | UnmatchedOpenError : TranslateError
deriving DecidableEq

/-- Errors of the execution engine (the source panics with
"Inaccessible memory" and on exhausted input). -/
inductive RunError where
  | OutOfBoundsError : RunError
  | InputError : RunError
deriving DecidableEq

/-- The `Interpreter` struct from the source (`memory`, `memory_pointer`,
`instruction_pointer`), extended with the ambient byte streams: `input`
models the bytes still to be read from stdin, `output` the bytes printed
so far.  The immutable `code` field is passed separately to `step`/`run`. -/
structure Interpreter where
  memory : List Nat
  memory_pointer : Nat
  instruction_pointer : Nat
  input : List Nat
  output : List Nat
deriving DecidableEq

/-- `Interpreter::new`: fresh state with `MEMORY_INIT_ALLOCATE` zeroed
cells, both pointers at 0, and a given pending-input stream. -/
def Interpreter.new (inp : List Nat) : Interpreter :=
  { memory := List.replicate MEMORY_INIT_ALLOCATE 0
    memory_pointer := 0
    instruction_pointer := 0
    input := inp
    output := [] }

/-- `Interpreter::current_memory`: the cell under the data pointer. -/
def current_memory (ctx : Interpreter) : Nat :=
  ctx.memory.getD ctx.memory_pointer 0

/-- `Interpreter::next_instruction`: the instruction under the
instruction pointer (only consulted when in bounds by `run`). -/
def next_instruction (code : CompiledCode) (ctx : Interpreter) : Instruction :=
  List.getD code ctx.instruction_pointer .Right

/-- `fn right`: move the data pointer right, growing the tape by
`MEMORY_DYN_ALLOCATE` zeroed cells when the pointer reaches its end
(`Vec::resize` to a larger size appends zeros). -/
def right (ctx : Interpreter) : Interpreter :=
  let moved : Interpreter := { ctx with memory_pointer := ctx.memory_pointer + 1 }
  if moved.memory.length ≤ moved.memory_pointer then
    { moved with memory := moved.memory ++ List.replicate MEMORY_DYN_ALLOCATE 0 }
  else
    moved

/-- `fn left`: move the data pointer left; the source's
`panic!("Inaccessible memory")` at pointer 0 becomes `OutOfBoundsError`. -/
def left (ctx : Interpreter) : Except RunError Interpreter :=
  if ctx.memory_pointer = 0 then
    .error .OutOfBoundsError
  else
    .ok { ctx with memory_pointer := ctx.memory_pointer - 1 }

/-- `fn increment`: the source special-cases 255 to 0 and otherwise adds 1. -/
def increment (ctx : Interpreter) : Interpreter :=
  { ctx with
      memory := ctx.memory.set ctx.memory_pointer
        (if current_memory ctx = 255 then 0 else current_memory ctx + 1) }

/-- `fn decrement`: the source special-cases 0 to 255 and otherwise subtracts 1. -/
def decrement (ctx : Interpreter) : Interpreter :=
  { ctx with
      memory := ctx.memory.set ctx.memory_pointer
        (if current_memory ctx = 0 then 255 else current_memory ctx - 1) }

/-- `fn input`: consume one byte from the pending input (the source's
`expect` on an empty read becomes `InputError`); the `as u8` cast is the
truncation modulo 256. -/
def input (ctx : Interpreter) : Except RunError Interpreter :=
  match ctx.input with
  | [] => .error .InputError
  | b :: rest =>
      .ok { ctx with
              memory := ctx.memory.set ctx.memory_pointer (b % 256)
              input := rest }

/-- `fn output`: emit the current cell as one byte. -/
def output (ctx : Interpreter) : Interpreter :=
  { ctx with output := ctx.output ++ [current_memory ctx] }

/-- The unconditional `instruction_pointer += 1` at the bottom of the
source's dispatch loop. -/
def advance (ctx : Interpreter) : Interpreter :=
  { ctx with instruction_pointer := ctx.instruction_pointer + 1 }

/-- One iteration of the source's `while` loop: dispatch on the current
instruction, then advance the instruction pointer.  `BeginLoop(loop_end)`
with a zero cell sets the pointer to `loop_end - 0`; `EndLoop(loop_start)`
with a nonzero cell sets it to `loop_start - 1`; both exactly as written
in the source. -/
def step (code : CompiledCode) (ctx : Interpreter) : Except RunError Interpreter :=
  match next_instruction code ctx with
  | .Right => .ok (advance (right ctx))
  | .Left => (left ctx).map advance
  | .Increment => .ok (advance (increment ctx))
  | .Decrement => .ok (advance (decrement ctx))
  | .Print => .ok (advance (output ctx))
  | .Read => (input ctx).map advance
  | .BeginLoop loop_end =>
      .ok (advance (if current_memory ctx = 0 then
        { ctx with instruction_pointer := loop_end - 0 } else ctx))
  | .EndLoop loop_start =>
      .ok (advance (if current_memory ctx ≠ 0 then
        { ctx with instruction_pointer := loop_start - 1 } else ctx))

/-- Outcome of a fueled run: `done` is clean termination (the `while`
condition failed), `err` a fatal error, `timeout` fuel exhaustion. -/
inductive RunResult where
  | done : Interpreter → RunResult
  | err : RunError → RunResult
  | timeout : Interpreter → RunResult
deriving DecidableEq

/-- The source's `while instruction_pointer < code.len()` loop, with fuel. -/
def run (code : CompiledCode) : Nat → Interpreter → RunResult
  | 0, ctx => .timeout ctx
  | fuel + 1, ctx =>
      if ctx.instruction_pointer < code.length then
        match step code ctx with
        | .error e => .err e
        | .ok ctx' => run code fuel ctx'
      else
        .done ctx

/-- The filter `code.retain(|c| "<>+-.,[]".contains(c))` from the source. -/
def isSymbol (c : Char) : Bool :=
  ['<', '>', '+', '-', '.', ',', '[', ']'].contains c

/-- The translation scan from `main`: walk the (already filtered)
character stream keeping the partially built `compiled` code and the
stack of pending loop-begin positions.  The source's 1-based `index`
counter always equals `compiled.length + 1` at match time, so it is
inlined as such.  `'['` pushes a `BeginLoop 0` placeholder and records
its 1-based position; `']'` pops a position `loop_start`, patches
`compiled[loop_start - 1]` to `BeginLoop index`, and appends
`EndLoop loop_start`.  Unmatched brackets are the source's two panics. -/
def translateAux : List Char → CompiledCode → List Nat → Except TranslateError CompiledCode
  | [], compiled, loop_stack =>
      if loop_stack.isEmpty then .ok compiled else .error .UnmatchedOpenError
  | c :: rest, compiled, loop_stack =>
      if c = '>' then translateAux rest (compiled ++ [.Right]) loop_stack
      else if c = '<' then translateAux rest (compiled ++ [.Left]) loop_stack
      else if c = '+' then translateAux rest (compiled ++ [.Increment]) loop_stack
      else if c = '-' then translateAux rest (compiled ++ [.Decrement]) loop_stack
      else if c = '.' then translateAux rest (compiled ++ [.Print]) loop_stack
      else if c = ',' then translateAux rest (compiled ++ [.Read]) loop_stack
      else if c = '[' then
        translateAux rest (compiled ++ [.BeginLoop 0]) ((compiled.length + 1) :: loop_stack)
      else if c = ']' then
        match loop_stack with
        | [] => .error .UnmatchedCloseError
        | loop_start :: stack_rest =>
            translateAux rest
              ((compiled.set (loop_start - 1) (.BeginLoop (compiled.length + 1)))
                ++ [.EndLoop loop_start])
              stack_rest
      else translateAux rest compiled loop_stack

/-- The whole translation pass of `main`: filter, then scan. -/
def translateProgram (s : List Char) : Except TranslateError CompiledCode :=
  translateAux (s.filter isSymbol) [] []

/-- Balanced-bracket check over a character stream, carrying the current
nesting depth: every `']'` must find a positive depth and the final depth
must be zero.  Non-bracket characters are skipped. -/
def balancedAux : List Char → Nat → Bool
  | [], depth => depth == 0
  | c :: rest, depth =>
      if c = '[' then balancedAux rest (depth + 1)
      else if c = ']' then (depth != 0) && balancedAux rest (depth - 1)
      else balancedAux rest depth

/-- Whether some `']'` in the stream is scanned at nesting depth zero,
i.e. with an empty stack of pending loop begins. -/
def closedEarly : List Char → Nat → Bool
  | [], _ => false
  | c :: rest, depth =>
      if c = '[' then closedEarly rest (depth + 1)
      else if c = ']' then (depth == 0) || closedEarly rest (depth - 1)
      else closedEarly rest depth

/-- The spec's claimed target invariant, read with 0-based targets:
each loop instruction's target indexes its matching partner, and the
partner's target points straight back (`seq[seq[i].target].target == i`). -/
def MutualTargets0 (seq : CompiledCode) : Prop :=
  ∀ i, i < seq.length →
    (∀ t, List.getD seq i .Right = .BeginLoop t →
      t < seq.length ∧ List.getD seq t .Right = .EndLoop i) ∧
    (∀ t, List.getD seq i .Right = .EndLoop t →
      t < seq.length ∧ List.getD seq t .Right = .BeginLoop i)

/-- The target invariant the translator actually establishes: targets
are 1-based partner positions, so the matching partner of the loop
instruction at `i` sits at `target - 1` and its own target is `i + 1`
(`seq[seq[i].target - 1].target == i + 1`). -/
def MutualTargets1 (seq : CompiledCode) : Prop :=
  ∀ i, i < seq.length →
    (∀ t, List.getD seq i .Right = .BeginLoop t →
      1 ≤ t ∧ t ≤ seq.length ∧ List.getD seq (t - 1) .Right = .EndLoop (i + 1)) ∧
    (∀ t, List.getD seq i .Right = .EndLoop t →
      1 ≤ t ∧ t ≤ seq.length ∧ List.getD seq (t - 1) .Right = .BeginLoop (i + 1))

/-- Scan invariant: every pending stack entry is the 1-based position of
a `BeginLoop 0` placeholder in the code built so far. -/
def Pending (compiled : CompiledCode) (loop_stack : List Nat) : Prop :=
  ∀ p ∈ loop_stack,
    1 ≤ p ∧ p ≤ compiled.length ∧ List.getD compiled (p - 1) .Right = .BeginLoop 0

/-- Scan invariant: every loop instruction already emitted is either a
pending placeholder (its 1-based position is on the stack and its target
is still 0) or fully resolved against its matching partner, with 1-based
targets as in `MutualTargets1`. -/
def Resolved (compiled : CompiledCode) (loop_stack : List Nat) : Prop :=
  ∀ i, i < compiled.length →
    (∀ t, List.getD compiled i .Right = .BeginLoop t →
      ((i + 1) ∈ loop_stack ∧ t = 0) ∨
      ((i + 1) ∉ loop_stack ∧ 1 ≤ t ∧ t ≤ compiled.length ∧ i < t - 1 ∧
        List.getD compiled (t - 1) .Right = .EndLoop (i + 1))) ∧
    (∀ t, List.getD compiled i .Right = .EndLoop t →
      1 ≤ t ∧ t - 1 < i ∧ List.getD compiled (t - 1) .Right = .BeginLoop (i + 1))

/-- The full invariant of the translation scan: pending entries are
placeholder positions, emitted instructions are pending-or-resolved, and
the stack is strictly decreasing from its top. -/
def StackInv (compiled : CompiledCode) (loop_stack : List Nat) : Prop :=
  Pending compiled loop_stack ∧ Resolved compiled loop_stack ∧
    List.Pairwise (fun a b => b < a) loop_stack

/-- States reachable by the execution engine from a fresh interpreter,
stepping only while the instruction pointer is in bounds, exactly as the
source's `while` loop does. -/
inductive Reach (code : CompiledCode) (inp : List Nat) : Interpreter → Prop where
  | base : Reach code inp (Interpreter.new inp)
  | next {ctx ctx' : Interpreter} : Reach code inp ctx →
      ctx.instruction_pointer < code.length → step code ctx = .ok ctx' →
      Reach code inp ctx'

/-- Iterated `right`, modelling a block of consecutive MoveRight
instructions acting on the tape and data pointer. -/
def rightIter : Nat → Interpreter → Interpreter
  | 0, ctx => ctx
  | n + 1, ctx => rightIter n (right ctx)

/-- Instruction pointer of a successful step, if any. -/
def ipOf : Except RunError Interpreter → Option Nat
  | .ok ctx => some ctx.instruction_pointer
  | .error _ => none

/-- Cell `i` of the final tape of a cleanly terminated run, if any. -/
def cellAt (r : RunResult) (i : Nat) : Option Nat :=
  match r with
  | .done ctx => some (ctx.memory.getD i 0)
  | _ => none

/-- The copy-loop example program `"+[>+<-]"`. -/
def prog8 : List Char := ['+', '[', '>', '+', '<', '-', ']']

/-- Its translation (targets are the 1-based partner positions). -/
def code8 : CompiledCode :=
  [.Increment, .BeginLoop 7, .Right, .Increment, .Left, .Decrement, .EndLoop 2]

/-- The program `"[]+"`: a skipped empty loop followed by an increment. -/
def progSkip : List Char := ['[', ']', '+']

/-- Its translation. -/
def codeSkip : CompiledCode := [.BeginLoop 2, .EndLoop 1, .Increment]

/-- The program `"++[-]"`: a countdown loop entered with cell value 2. -/
def progCountdown : List Char := ['+', '+', '[', '-', ']']

/-- Its translation. -/
def codeCountdown : CompiledCode :=
  [.Increment, .Increment, .BeginLoop 5, .Decrement, .EndLoop 3]

/-- The machine state of `codeCountdown` just as its `EndLoop 3` is about
to execute with current cell 1 (reached after four steps of the run). -/
def ctxCountdown : Interpreter :=
  { memory := (List.replicate MEMORY_INIT_ALLOCATE 0).set 0 1
    memory_pointer := 0
    instruction_pointer := 4
    input := []
    output := [] }

/-- `n` executions of `step` in a row (no termination check), used to
exhibit concrete intermediate machine states. -/
def stepN (code : CompiledCode) : Nat → Interpreter → Except RunError Interpreter
  | 0, ctx => .ok ctx
  | n + 1, ctx =>
      match step code ctx with
      | .error e => .error e
      | .ok ctx' => stepN code n ctx'

/-- A one-cell state holding 255, for exercising increment wraparound. -/
def cell255 : Interpreter :=
  { memory := [255], memory_pointer := 0, instruction_pointer := 0
    input := [], output := [] }

/-- A one-cell state holding 0, for exercising decrement wraparound. -/
def cell0 : Interpreter :=
  { memory := [0], memory_pointer := 0, instruction_pointer := 0
    input := [], output := [] }

/-! ## Generic list access lemmas -/

theorem getD_append_lt {α : Type} (l₁ l₂ : List α) (n : Nat) (d : α) (h : n < l₁.length) :
    (l₁ ++ l₂).getD n d = l₁.getD n d := by
  simp [List.getD_eq_getElem?_getD, List.getElem?_append_left h]

theorem getD_append_self {α : Type} (l : List α) (x d : α) :
    (l ++ [x]).getD l.length d = x := by
  simp [List.getD_eq_getElem?_getD, List.getElem?_append_right]

theorem getD_set_same {α : Type} (l : List α) (n : Nat) (x d : α) (h : n < l.length) :
    (l.set n x).getD n d = x := by
  simp [List.getD_eq_getElem?_getD, List.getElem?_set_eq_of_lt x h]

theorem getD_set_other {α : Type} (l : List α) (m n : Nat) (x d : α) (h : m ≠ n) :
    (l.set m x).getD n d = l.getD n d := by
  simp [List.getD_eq_getElem?_getD, List.getElem?_set_ne h]

/-! ## C7: MoveLeft -/

/-- C7: executing MoveLeft fails with `OutOfBoundsError` exactly when the
data pointer is 0; otherwise it only decrements the data pointer by one,
leaving the tape (and everything else) unchanged. -/
theorem c7_move_left (ctx : Interpreter) :
    (left ctx = .error .OutOfBoundsError ↔ ctx.memory_pointer = 0) ∧
    (ctx.memory_pointer ≠ 0 →
      left ctx = .ok { ctx with memory_pointer := ctx.memory_pointer - 1 }) := by
  constructor
  · constructor
    · intro h
      by_contra hne
      simp [left, hne] at h
    · intro h
      simp [left, h]
  · intro h
    simp [left, h]

/-- Witness for C7 at concrete states: pointer 0 faults, pointer 2 moves to 1. -/
theorem c7_move_left_witness :
    left (Interpreter.new []) = .error .OutOfBoundsError ∧
    left { cell0 with memory_pointer := 2 } =
      .ok { cell0 with memory_pointer := 1 } := by
  constructor
  · exact (c7_move_left (Interpreter.new [])).1.mpr rfl
  · exact (c7_move_left { cell0 with memory_pointer := 2 }).2 (by decide)

/-! ## C6: MoveRight and tape growth -/

theorem right_memory_pointer (ctx : Interpreter) :
    (right ctx).memory_pointer = ctx.memory_pointer + 1 := by
  simp only [right]
  split <;> rfl

theorem right_memory_grow (ctx : Interpreter)
    (h : ctx.memory.length ≤ ctx.memory_pointer + 1) :
    (right ctx).memory = ctx.memory ++ List.replicate MEMORY_DYN_ALLOCATE 0 := by
  simp only [right]
  rw [if_pos h]

theorem right_memory_stay (ctx : Interpreter)
    (h : ctx.memory_pointer + 1 < ctx.memory.length) :
    (right ctx).memory = ctx.memory := by
  simp only [right]
  rw [if_neg (by omega)]

theorem right_exists_grow (ctx : Interpreter) :
    ∃ k, (right ctx).memory = ctx.memory ++ List.replicate k 0 := by
  by_cases h : ctx.memory.length ≤ ctx.memory_pointer + 1
  · exact ⟨MEMORY_DYN_ALLOCATE, right_memory_grow ctx h⟩
  · refine ⟨0, ?_⟩
    rw [right_memory_stay ctx (by omega)]
    simp

theorem right_in_bounds (ctx : Interpreter)
    (h : ctx.memory_pointer < ctx.memory.length) :
    (right ctx).memory_pointer < (right ctx).memory.length := by
  rw [right_memory_pointer]
  by_cases hg : ctx.memory.length ≤ ctx.memory_pointer + 1
  · rw [right_memory_grow ctx hg]
    simp [MEMORY_DYN_ALLOCATE]
    omega
  · rw [right_memory_stay ctx (by omega)]
    omega

theorem rightIter_spec (n : Nat) : ∀ ctx : Interpreter,
    (∃ k, (rightIter n ctx).memory = ctx.memory ++ List.replicate k 0) ∧
    (rightIter n ctx).memory_pointer = ctx.memory_pointer + n := by
  induction n with
  | zero =>
      intro ctx
      exact ⟨⟨0, by simp [rightIter]⟩, by simp [rightIter]⟩
  | succ m ih =>
      intro ctx
      have hstep : rightIter (m + 1) ctx = rightIter m (right ctx) := rfl
      obtain ⟨⟨k₁, hk₁⟩, hmp⟩ := ih (right ctx)
      obtain ⟨k₀, hk₀⟩ := right_exists_grow ctx
      constructor
      · refine ⟨k₀ + k₁, ?_⟩
        rw [hstep, hk₁, hk₀, List.append_assoc, List.replicate_add]
      · rw [hstep, hmp, right_memory_pointer]
        omega

theorem rightIter_in_bounds (n : Nat) : ∀ ctx : Interpreter,
    ctx.memory_pointer < ctx.memory.length →
    (rightIter n ctx).memory_pointer < (rightIter n ctx).memory.length := by
  induction n with
  | zero =>
      intro ctx h
      exact h
  | succ m ih =>
      intro ctx h
      exact ih (right ctx) (right_in_bounds ctx h)

/-- C6: MoveRight increments the data pointer by exactly one; it grows
the tape by `MEMORY_DYN_ALLOCATE` zeroed cells precisely when the new
pointer reaches the current length and leaves it untouched otherwise;
iterating it any number of times adds only zeroed cells (so the tape
never shrinks and every newly exposed cell reads 0, via `getD _ 0`) and
keeps an in-bounds pointer in bounds. -/
theorem c6_move_right_growth (ctx : Interpreter) :
    (right ctx).memory_pointer = ctx.memory_pointer + 1 ∧
    (ctx.memory.length ≤ ctx.memory_pointer + 1 →
      (right ctx).memory = ctx.memory ++ List.replicate MEMORY_DYN_ALLOCATE 0) ∧
    (ctx.memory_pointer + 1 < ctx.memory.length → (right ctx).memory = ctx.memory) ∧
    ∀ n : Nat,
      (rightIter n ctx).memory_pointer = ctx.memory_pointer + n ∧
      ctx.memory.length ≤ (rightIter n ctx).memory.length ∧
      (∀ j, ctx.memory.length ≤ j → (rightIter n ctx).memory.getD j 0 = 0) ∧
      (ctx.memory_pointer < ctx.memory.length →
        (rightIter n ctx).memory_pointer < (rightIter n ctx).memory.length) := by
  refine ⟨right_memory_pointer ctx, right_memory_grow ctx, right_memory_stay ctx, ?_⟩
  intro n
  obtain ⟨⟨k, hk⟩, hmp⟩ := rightIter_spec n ctx
  refine ⟨hmp, by rw [hk]; simp, ?_, rightIter_in_bounds n ctx⟩
  intro j hj
  rw [hk, List.getD_eq_getElem?_getD, List.getElem?_append_right hj]
  rcases Nat.lt_or_ge (j - ctx.memory.length) k with hlt | hge
  · simp [List.getElem?_replicate, hlt]
  · rw [List.getElem?_eq_none (by simpa using hge)]
    rfl

/-- Witness for C6: 1300 consecutive MoveRights from a fresh interpreter
(initial tape 1024) place the pointer at 1300, keep it in bounds, and
cell 1200 of the grown tape reads 0. -/
theorem c6_move_right_growth_witness :
    (rightIter 1300 (Interpreter.new [])).memory_pointer =
      (Interpreter.new []).memory_pointer + 1300 ∧
    (rightIter 1300 (Interpreter.new [])).memory.getD 1200 0 = 0 ∧
    (rightIter 1300 (Interpreter.new [])).memory_pointer <
      (rightIter 1300 (Interpreter.new [])).memory.length := by
  obtain ⟨-, -, -, h⟩ := c6_move_right_growth (Interpreter.new [])
  obtain ⟨h1, -, h3, h4⟩ := h 1300
  refine ⟨h1, ?_, ?_⟩
  · refine h3 1200 ?_
    simp only [Interpreter.new, List.length_replicate, MEMORY_INIT_ALLOCATE]
    omega
  · refine h4 ?_
    simp only [Interpreter.new, List.length_replicate, MEMORY_INIT_ALLOCATE]
    omega

/-! ## C8: the copy-loop program -/

set_option maxRecDepth 100000 in
/-- C8: `"+[>+<-]"` translates to `code8`, and running it from a fresh
interpreter terminates cleanly (within 20 steps; `cellAt` is `some` only
on clean termination) with cell 0 = 0 and cell 1 = 1. -/
theorem c8_copy_loop :
    translateProgram prog8 = .ok code8 ∧
    cellAt (run code8 20 (Interpreter.new [])) 0 = some 0 ∧
    cellAt (run code8 20 (Interpreter.new [])) 1 = some 1 :=
  ⟨rfl, rfl, rfl⟩

/-! ## C2: BeginLoop with a zero cell overshoots the matching EndLoop -/

/-- C2 (code bug): in `codeSkip` (= translation of `"[]+"`) the
`BeginLoop 2` at index 0 matches the `EndLoop 1` at index 1, yet stepping
it with a zero current cell leaves the instruction pointer at 3, not at
2 (the instruction immediately after the matching EndLoop), so the
`Increment` at index 2 is skipped and the whole run ends with cell 0
still 0 instead of 1. -/
theorem c2_skips_instruction_after_loop_end :
    translateProgram progSkip = .ok codeSkip ∧
    List.getD codeSkip 0 .Right = .BeginLoop 2 ∧
    List.getD codeSkip 1 .Right = .EndLoop 1 ∧
    current_memory (Interpreter.new []) = 0 ∧
    ipOf (step codeSkip (Interpreter.new [])) = some 3 ∧
    cellAt (run codeSkip 10 (Interpreter.new [])) 0 = some 0 :=
  ⟨rfl, rfl, rfl, rfl, rfl, rfl⟩

/-! ## C9: non-symbol characters are no-ops -/

/-- C9: translation only sees the eight recognized symbols — translating
any text equals translating its `isSymbol`-filtered form; in particular
`"a+b-c"` and `"+-"` translate identically. -/
theorem c9_filter_invariance :
    (∀ s : List Char, translateProgram s = translateProgram (s.filter isSymbol)) ∧
    translateProgram ['a', '+', 'b', '-', 'c'] = translateProgram ['+', '-'] := by
  constructor
  · intro s
    show translateAux (s.filter isSymbol) [] [] =
      translateAux ((s.filter isSymbol).filter isSymbol) [] []
    rw [List.filter_filter]
    simp
  · rfl

/-! ## C1 counterexample: targets are not 0-based partner positions -/

/-- C1 counterexample: `"[]"` is balanced and translates successfully,
but the claimed invariant `seq[seq[i].target].target == i` (with the
target read as the partner's 0-based index) fails on the result: the
`BeginLoop` at index 0 carries target 2, which is not even an index of
the two-instruction sequence. -/
theorem c1_counterexample :
    translateProgram ['[', ']'] = .ok [.BeginLoop 2, .EndLoop 1] ∧
    ¬ MutualTargets0 [.BeginLoop 2, .EndLoop 1] := by
  refine ⟨rfl, ?_⟩
  intro h
  have h0 := (h 0 (by decide)).1 2 rfl
  exact absurd h0.1 (by decide)

/-! ## C3 counterexample: EndLoop does not land on the matching BeginLoop -/

/-- C3 counterexample: in `codeCountdown` (= translation of `"++[-]"`)
the `EndLoop 3` at index 4 matches the `BeginLoop 5` at index 2; in the
state `ctxCountdown` (reached after four steps of the run) the current
cell is 1 ≠ 0, and stepping leaves the instruction pointer at 3 — the
instruction after the matching BeginLoop — not at 2 as the claim says. -/
theorem c3_counterexample :
    translateProgram progCountdown = .ok codeCountdown ∧
    stepN codeCountdown 4 (Interpreter.new []) = .ok ctxCountdown ∧
    List.getD codeCountdown 4 .Right = .EndLoop 3 ∧
    List.getD codeCountdown 2 .Right = .BeginLoop 5 ∧
    current_memory ctxCountdown = 1 ∧
    ipOf (step codeCountdown ctxCountdown) = some 3 ∧
    (3 : Nat) ≠ 2 :=
  ⟨rfl, rfl, rfl, rfl, rfl, rfl, by decide⟩

/-! ## Execution-state invariants (C10, C5) -/

theorem current_memory_lt (ctx : Interpreter)
    (hmp : ctx.memory_pointer < ctx.memory.length)
    (hb : ∀ c ∈ ctx.memory, c < 256) :
    current_memory ctx < 256 := by
  rw [current_memory, List.getD_eq_getElem _ _ hmp]
  exact hb _ (List.getElem_mem hmp)

theorem bytes_set (mem : List Nat) (n v : Nat) (hv : v < 256)
    (hb : ∀ c ∈ mem, c < 256) :
    ∀ c ∈ mem.set n v, c < 256 := by
  intro c hc
  rcases List.mem_or_eq_of_mem_set hc with h | h
  · exact hb c h
  · omega

theorem step_preserves_inv (code : CompiledCode) (ctx ctx' : Interpreter)
    (hmp : ctx.memory_pointer < ctx.memory.length)
    (hb : ∀ c ∈ ctx.memory, c < 256)
    (hs : step code ctx = .ok ctx') :
    ctx'.memory_pointer < ctx'.memory.length ∧ ∀ c ∈ ctx'.memory, c < 256 := by
  unfold step at hs
  cases hni : next_instruction code ctx <;> rw [hni] at hs
  case Right =>
      obtain rfl : advance (right ctx) = ctx' := by injection hs
      exact ⟨right_in_bounds ctx hmp, by
        obtain ⟨k, hk⟩ := right_exists_grow ctx
        show ∀ c ∈ (right ctx).memory, c < 256
        rw [hk]
        intro c hc
        rcases List.mem_append.mp hc with h | h
        · exact hb c h
        · have := List.eq_of_mem_replicate h
          omega⟩
  case Left =>
      unfold left at hs
      by_cases h0 : ctx.memory_pointer = 0
      · rw [if_pos h0] at hs
        simp [Except.map] at hs
      · rw [if_neg h0] at hs
        obtain rfl : advance { ctx with memory_pointer := ctx.memory_pointer - 1 } = ctx' := by
          injection hs
        exact ⟨by simp [advance]; omega, hb⟩
  case Increment =>
      obtain rfl : advance (increment ctx) = ctx' := by injection hs
      have hcur := current_memory_lt ctx hmp hb
      refine ⟨by simp [advance, increment]; omega, ?_⟩
      show ∀ c ∈ (increment ctx).memory, c < 256
      simp only [increment]
      refine bytes_set _ _ _ ?_ hb
      by_cases h255 : current_memory ctx = 255
      · rw [if_pos h255]; omega
      · rw [if_neg h255]; omega
  case Decrement =>
      obtain rfl : advance (decrement ctx) = ctx' := by injection hs
      have hcur := current_memory_lt ctx hmp hb
      refine ⟨by simp [advance, decrement]; omega, ?_⟩
      show ∀ c ∈ (decrement ctx).memory, c < 256
      simp only [decrement]
      refine bytes_set _ _ _ ?_ hb
      by_cases h0 : current_memory ctx = 0
      · rw [if_pos h0]; omega
      · rw [if_neg h0]; omega
  case Print =>
      obtain rfl : advance (output ctx) = ctx' := by injection hs
      exact ⟨by simp [advance, output]; omega, hb⟩
  case Read =>
      unfold input at hs
      cases hin : ctx.input with
      | nil =>
          rw [hin] at hs
          simp [Except.map] at hs
      | cons b rest =>
          rw [hin] at hs
          obtain rfl : advance { ctx with
              memory := ctx.memory.set ctx.memory_pointer (b % 256),
              input := rest } = ctx' := by injection hs
          refine ⟨by simp [advance]; omega, ?_⟩
          exact bytes_set _ _ _ (Nat.mod_lt b (by omega)) hb
  case BeginLoop loop_end =>
      obtain rfl : advance (if current_memory ctx = 0 then
          { ctx with instruction_pointer := loop_end - 0 } else ctx) = ctx' := by
        injection hs
      by_cases h0 : current_memory ctx = 0
      · rw [if_pos h0]
        exact ⟨hmp, hb⟩
      · rw [if_neg h0]
        exact ⟨hmp, hb⟩
  case EndLoop loop_start =>
      obtain rfl : advance (if current_memory ctx ≠ 0 then
          { ctx with instruction_pointer := loop_start - 1 } else ctx) = ctx' := by
        injection hs
      by_cases h0 : current_memory ctx ≠ 0
      · rw [if_pos h0]
        exact ⟨hmp, hb⟩
      · rw [if_neg h0]
        exact ⟨hmp, hb⟩

theorem reach_inv {code : CompiledCode} {inp : List Nat} {ctx : Interpreter}
    (h : Reach code inp ctx) :
    ctx.memory_pointer < ctx.memory.length ∧ ∀ c ∈ ctx.memory, c < 256 := by
  induction h with
  | base =>
      constructor
      · simp only [Interpreter.new, List.length_replicate, MEMORY_INIT_ALLOCATE]
        omega
      · intro c hc
        simp only [Interpreter.new] at hc
        have := List.eq_of_mem_replicate hc
        omega
  | next hr hip hs ih =>
      exact step_preserves_inv _ _ _ ih.1 ih.2 hs

/-- C10: in every state the engine can reach from a fresh interpreter,
the data pointer is strictly below the tape length, so every
current-cell access is in bounds. -/
theorem c10_pointer_in_bounds (code : CompiledCode) (inp : List Nat)
    (ctx : Interpreter) (h : Reach code inp ctx) :
    ctx.memory_pointer < ctx.memory.length :=
  (reach_inv h).1

/-- Witness for C10 at the initial state of the empty program. -/
theorem c10_pointer_in_bounds_witness :
    (Interpreter.new []).memory_pointer < (Interpreter.new []).memory.length :=
  c10_pointer_in_bounds [] [] (Interpreter.new []) Reach.base

/-! ## C5: wraparound arithmetic -/

/-- C5: with the data pointer in bounds and the current cell a byte,
Increment stores `(c + 1) % 256` and Decrement stores `(c - 1) mod 256`
(as integers, so `0 - 1` wraps to `255`); and in every reachable state
every cell is in `[0, 255]`. -/
theorem c5_wraparound :
    (∀ ctx : Interpreter, ctx.memory_pointer < ctx.memory.length →
      current_memory ctx < 256 →
      current_memory (increment ctx) = (current_memory ctx + 1) % 256 ∧
      (current_memory (decrement ctx) : Int) = ((current_memory ctx : Int) - 1) % 256) ∧
    ∀ code inp ctx, Reach code inp ctx → ∀ c ∈ ctx.memory, c < 256 := by
  constructor
  · intro ctx hmp hcur
    constructor
    · show List.getD _ _ _ = _
      simp only [increment]
      rw [getD_set_same _ _ _ _ hmp]
      by_cases h255 : current_memory ctx = 255
      · rw [if_pos h255, h255]
      · rw [if_neg h255, Nat.mod_eq_of_lt (by omega)]
    · show ((List.getD _ _ _ : Nat) : Int) = _
      simp only [decrement]
      rw [getD_set_same _ _ _ _ hmp]
      by_cases h0 : current_memory ctx = 0
      · rw [if_pos h0, h0]
        decide
      · rw [if_neg h0]
        have h1 : 1 ≤ current_memory ctx := by omega
        rw [Int.emod_eq_of_lt (by omega) (by omega)]
        omega
  · intro code inp ctx h
    exact (reach_inv h).2

/-- Witness for C5: one Increment on a cell holding 255 yields 0, one
Decrement on a cell holding 0 yields 255, and all cells of the initial
state are bytes. -/
theorem c5_wraparound_witness :
    current_memory (increment cell255) = (current_memory cell255 + 1) % 256 ∧
    (current_memory (decrement cell0) : Int) = ((current_memory cell0 : Int) - 1) % 256 ∧
    ∀ c ∈ (Interpreter.new []).memory, c < 256 := by
  refine ⟨?_, ?_, ?_⟩
  · exact (c5_wraparound.1 cell255 (by decide) (by decide)).1
  · exact (c5_wraparound.1 cell0 (by decide) (by decide)).2
  · exact c5_wraparound.2 [] [] (Interpreter.new []) Reach.base

/-! ## Translation-scan invariants (C1, C3, C4) -/

theorem stackInv_push_plain (compiled : CompiledCode) (stack : List Nat)
    (ins : Instruction)
    (hIns : ∀ t, ins ≠ .BeginLoop t ∧ ins ≠ .EndLoop t)
    (h : StackInv compiled stack) : StackInv (compiled ++ [ins]) stack := by
  obtain ⟨hp, hr, hs⟩ := h
  refine ⟨?_, ?_, hs⟩
  · intro p hpmem
    obtain ⟨h1, h2, h3⟩ := hp p hpmem
    refine ⟨h1, by simp only [List.length_append, List.length_singleton]; omega, ?_⟩
    rw [getD_append_lt _ _ _ _ (by omega)]
    exact h3
  · intro i hi
    simp only [List.length_append, List.length_singleton] at hi
    by_cases hlt : i < compiled.length
    · rw [getD_append_lt _ _ _ _ hlt]
      obtain ⟨hb, he⟩ := hr i hlt
      constructor
      · intro t ht
        rcases hb t ht with ⟨h1, h2⟩ | ⟨h1, h2, h3, h4, h5⟩
        · exact Or.inl ⟨h1, h2⟩
        · refine Or.inr ⟨h1, h2,
            by simp only [List.length_append, List.length_singleton]; omega, h4, ?_⟩
          rw [getD_append_lt _ _ _ _ (by omega)]
          exact h5
      · intro t ht
        obtain ⟨h1, h2, h3⟩ := he t ht
        refine ⟨h1, h2, ?_⟩
        rw [getD_append_lt _ _ _ _ (by omega)]
        exact h3
    · have hieq : i = compiled.length := by omega
      subst hieq
      rw [getD_append_self]
      constructor
      · intro t ht
        exact absurd ht (hIns t).1
      · intro t ht
        exact absurd ht (hIns t).2

theorem stackInv_push_begin (compiled : CompiledCode) (stack : List Nat)
    (h : StackInv compiled stack) :
    StackInv (compiled ++ [.BeginLoop 0]) ((compiled.length + 1) :: stack) := by
  obtain ⟨hp, hr, hs⟩ := h
  refine ⟨?_, ?_, ?_⟩
  · intro p hpmem
    rcases List.mem_cons.mp hpmem with heq | hmem
    · subst heq
      refine ⟨by omega, by simp only [List.length_append, List.length_singleton]; omega, ?_⟩
      have hlen : compiled.length + 1 - 1 = compiled.length := by omega
      rw [hlen, getD_append_self]
    · obtain ⟨h1, h2, h3⟩ := hp p hmem
      refine ⟨h1, by simp only [List.length_append, List.length_singleton]; omega, ?_⟩
      rw [getD_append_lt _ _ _ _ (by omega)]
      exact h3
  · intro i hi
    simp only [List.length_append, List.length_singleton] at hi
    by_cases hlt : i < compiled.length
    · rw [getD_append_lt _ _ _ _ hlt]
      obtain ⟨hb, he⟩ := hr i hlt
      constructor
      · intro t ht
        rcases hb t ht with ⟨h1, h2⟩ | ⟨h1, h2, h3, h4, h5⟩
        · exact Or.inl ⟨List.mem_cons_of_mem _ h1, h2⟩
        · refine Or.inr ⟨?_, h2,
            by simp only [List.length_append, List.length_singleton]; omega, h4, ?_⟩
          · intro hmem
            rcases List.mem_cons.mp hmem with heq | hmem'
            · omega
            · exact h1 hmem'
          · rw [getD_append_lt _ _ _ _ (by omega)]
            exact h5
      · intro t ht
        obtain ⟨h1, h2, h3⟩ := he t ht
        refine ⟨h1, h2, ?_⟩
        rw [getD_append_lt _ _ _ _ (by omega)]
        exact h3
    · have hieq : i = compiled.length := by omega
      subst hieq
      rw [getD_append_self]
      constructor
      · intro t ht
        have ht0 : t = 0 := by
          cases ht
          rfl
        subst ht0
        exact Or.inl ⟨List.mem_cons_self _ _, rfl⟩
      · intro t ht
        cases ht
  · refine List.pairwise_cons.mpr ⟨?_, hs⟩
    intro b hb
    have := (hp b hb).2.1
    omega

theorem stackInv_pop_close (compiled : CompiledCode) (rest : List Nat) (p : Nat)
    (h : StackInv compiled (p :: rest)) :
    StackInv ((compiled.set (p - 1) (.BeginLoop (compiled.length + 1)))
      ++ [.EndLoop p]) rest := by
  obtain ⟨hp, hr, hs⟩ := h
  obtain ⟨hp1, hp2, hp3⟩ := hp p (List.mem_cons_self _ _)
  obtain ⟨hlt_all, hrest⟩ := List.pairwise_cons.mp hs
  have hC_len : ((compiled.set (p - 1) (Instruction.BeginLoop (compiled.length + 1)))
      ++ [Instruction.EndLoop p]).length = compiled.length + 1 := by
    simp only [List.length_append, List.length_set, List.length_singleton]
  have hC_at : ∀ i, i < compiled.length → i ≠ p - 1 →
      ((compiled.set (p - 1) (Instruction.BeginLoop (compiled.length + 1)))
        ++ [Instruction.EndLoop p]).getD i .Right = compiled.getD i .Right := by
    intro i hi hne
    rw [getD_append_lt _ _ _ _ (by simp only [List.length_set]; omega)]
    exact getD_set_other _ _ _ _ _ (by omega)
  have hC_p1 : ((compiled.set (p - 1) (Instruction.BeginLoop (compiled.length + 1)))
      ++ [Instruction.EndLoop p]).getD (p - 1) .Right
        = .BeginLoop (compiled.length + 1) := by
    rw [getD_append_lt _ _ _ _ (by simp only [List.length_set]; omega)]
    exact getD_set_same _ _ _ _ (by omega)
  have hC_L : ((compiled.set (p - 1) (Instruction.BeginLoop (compiled.length + 1)))
      ++ [Instruction.EndLoop p]).getD compiled.length .Right = .EndLoop p := by
    have h0 := getD_append_self
      (compiled.set (p - 1) (Instruction.BeginLoop (compiled.length + 1)))
      (Instruction.EndLoop p) Instruction.Right
    rw [List.length_set] at h0
    exact h0
  refine ⟨?_, ?_, hrest⟩
  · intro q hqmem
    obtain ⟨h1, h2, h3⟩ := hp q (List.mem_cons_of_mem _ hqmem)
    have hqp : q < p := hlt_all q hqmem
    refine ⟨h1, by omega, ?_⟩
    rw [hC_at (q - 1) (by omega) (by omega)]
    exact h3
  · intro i hi
    rw [hC_len] at hi
    by_cases hiL : i = compiled.length
    · subst hiL
      rw [hC_L]
      constructor
      · intro t ht
        cases ht
      · intro t ht
        have htp : p = t := by injection ht
        subst htp
        exact ⟨hp1, by omega, by rw [hC_p1]⟩
    · by_cases hip : i = p - 1
      · subst hip
        rw [hC_p1]
        constructor
        · intro t ht
          have htL : compiled.length + 1 = t := by injection ht
          subst htL
          refine Or.inr ⟨?_, by omega, by omega, by omega, ?_⟩
          · have hpp : p - 1 + 1 = p := by omega
            rw [hpp]
            intro hmem
            exact absurd (hlt_all p hmem) (lt_irrefl p)
          · have hii : compiled.length + 1 - 1 = compiled.length := by omega
            have hpp : p - 1 + 1 = p := by omega
            rw [hii, hpp, hC_L]
        · intro t ht
          cases ht
      · have hilt : i < compiled.length := by omega
        rw [hC_at i hilt hip]
        obtain ⟨hb, he⟩ := hr i hilt
        constructor
        · intro t ht
          rcases hb t ht with ⟨hmem, ht0⟩ | ⟨h1, h2, h3, h4, h5⟩
          · rcases List.mem_cons.mp hmem with heq | hmem'
            · omega
            · exact Or.inl ⟨hmem', ht0⟩
          · have hne : t - 1 ≠ p - 1 := by
              intro hq
              rw [hq, hp3] at h5
              cases h5
            refine Or.inr ⟨?_, h2, by omega, h4, ?_⟩
            · intro hmem
              exact h1 (List.mem_cons_of_mem _ hmem)
            · rw [hC_at (t - 1) (by omega) hne]
              exact h5
        · intro t ht
          obtain ⟨h1, h2, h3⟩ := he t ht
          have hne : t - 1 ≠ p - 1 := by
            intro hq
            rw [hq, hp3] at h3
            have h03 : (0 : Nat) = i + 1 := by injection h3
            omega
          refine ⟨h1, h2, ?_⟩
          rw [hC_at (t - 1) (by omega) hne]
          exact h3

theorem translateAux_resolved : ∀ (cs : List Char) (compiled : CompiledCode)
    (stack : List Nat) (res : CompiledCode),
    StackInv compiled stack → translateAux cs compiled stack = .ok res →
    Resolved res [] := by
  intro cs
  induction cs with
  | nil =>
      intro compiled stack res hinv heq
      cases stack with
      | nil =>
          have hres : compiled = res := by injection heq
          subst hres
          exact hinv.2.1
      | cons p r => exact Except.noConfusion heq
  | cons c rest ih =>
      intro compiled stack res hinv heq
      simp only [translateAux] at heq
      by_cases h1 : c = '>'
      · rw [if_pos h1] at heq
        exact ih _ _ _ (stackInv_push_plain _ _ .Right (fun t => ⟨nofun, nofun⟩) hinv) heq
      rw [if_neg h1] at heq
      by_cases h2 : c = '<'
      · rw [if_pos h2] at heq
        exact ih _ _ _ (stackInv_push_plain _ _ .Left (fun t => ⟨nofun, nofun⟩) hinv) heq
      rw [if_neg h2] at heq
      by_cases h3 : c = '+'
      · rw [if_pos h3] at heq
        exact ih _ _ _ (stackInv_push_plain _ _ .Increment (fun t => ⟨nofun, nofun⟩) hinv) heq
      rw [if_neg h3] at heq
      by_cases h4 : c = '-'
      · rw [if_pos h4] at heq
        exact ih _ _ _ (stackInv_push_plain _ _ .Decrement (fun t => ⟨nofun, nofun⟩) hinv) heq
      rw [if_neg h4] at heq
      by_cases h5 : c = '.'
      · rw [if_pos h5] at heq
        exact ih _ _ _ (stackInv_push_plain _ _ .Print (fun t => ⟨nofun, nofun⟩) hinv) heq
      rw [if_neg h5] at heq
      by_cases h6 : c = ','
      · rw [if_pos h6] at heq
        exact ih _ _ _ (stackInv_push_plain _ _ .Read (fun t => ⟨nofun, nofun⟩) hinv) heq
      rw [if_neg h6] at heq
      by_cases h7 : c = '['
      · rw [if_pos h7] at heq
        exact ih _ _ _ (stackInv_push_begin _ _ hinv) heq
      rw [if_neg h7] at heq
      by_cases h8 : c = ']'
      · rw [if_pos h8] at heq
        cases stack with
        | nil => exact Except.noConfusion heq
        | cons p r => exact ih _ _ _ (stackInv_pop_close _ _ _ hinv) heq
      rw [if_neg h8] at heq
      exact ih _ _ _ hinv heq

theorem translateProgram_resolved (s : List Char) (res : CompiledCode)
    (h : translateProgram s = .ok res) : Resolved res [] := by
  refine translateAux_resolved (s.filter isSymbol) [] [] res ⟨?_, ?_, List.Pairwise.nil⟩ h
  · intro p hp
    cases hp
  · intro i hi
    exact absurd hi (by simp)

theorem resolved_mutualTargets1 (res : CompiledCode) (h : Resolved res []) :
    MutualTargets1 res := by
  intro i hi
  obtain ⟨hb, he⟩ := h i hi
  constructor
  · intro t ht
    rcases hb t ht with ⟨hmem, -⟩ | ⟨-, h1, h2, -, h4⟩
    · cases hmem
    · exact ⟨h1, h2, h4⟩
  · intro t ht
    obtain ⟨h1, h2, h3⟩ := he t ht
    exact ⟨h1, by omega, h3⟩

theorem balancedAux_cons_other (c : Char) (rest : List Char) (d : Nat)
    (h1 : c ≠ '[') (h2 : c ≠ ']') :
    balancedAux (c :: rest) d = balancedAux rest d := by
  simp only [balancedAux, if_neg h1, if_neg h2]

theorem closedEarly_cons_other (c : Char) (rest : List Char) (d : Nat)
    (h1 : c ≠ '[') (h2 : c ≠ ']') :
    closedEarly (c :: rest) d = closedEarly rest d := by
  simp only [closedEarly, if_neg h1, if_neg h2]

theorem translateAux_ok : ∀ (cs : List Char) (compiled : CompiledCode)
    (stack : List Nat), balancedAux cs stack.length = true →
    ∃ res, translateAux cs compiled stack = .ok res := by
  intro cs
  induction cs with
  | nil =>
      intro compiled stack hbal
      cases stack with
      | nil => exact ⟨compiled, rfl⟩
      | cons p r => simp [balancedAux] at hbal
  | cons c rest ih =>
      intro compiled stack hbal
      by_cases h1 : c = '>'
      · subst h1
        rw [balancedAux_cons_other _ _ _ (by decide) (by decide)] at hbal
        exact ih (compiled ++ [.Right]) stack hbal
      by_cases h2 : c = '<'
      · subst h2
        rw [balancedAux_cons_other _ _ _ (by decide) (by decide)] at hbal
        exact ih (compiled ++ [.Left]) stack hbal
      by_cases h3 : c = '+'
      · subst h3
        rw [balancedAux_cons_other _ _ _ (by decide) (by decide)] at hbal
        exact ih (compiled ++ [.Increment]) stack hbal
      by_cases h4 : c = '-'
      · subst h4
        rw [balancedAux_cons_other _ _ _ (by decide) (by decide)] at hbal
        exact ih (compiled ++ [.Decrement]) stack hbal
      by_cases h5 : c = '.'
      · subst h5
        rw [balancedAux_cons_other _ _ _ (by decide) (by decide)] at hbal
        exact ih (compiled ++ [.Print]) stack hbal
      by_cases h6 : c = ','
      · subst h6
        rw [balancedAux_cons_other _ _ _ (by decide) (by decide)] at hbal
        exact ih (compiled ++ [.Read]) stack hbal
      by_cases h7 : c = '['
      · subst h7
        have hbal' : balancedAux rest (((compiled.length + 1) :: stack).length) = true := by
          simpa using hbal
        exact ih (compiled ++ [.BeginLoop 0]) ((compiled.length + 1) :: stack) hbal'
      by_cases h8 : c = ']'
      · subst h8
        have hbal' : ((stack.length != 0) && balancedAux rest (stack.length - 1)) = true := hbal
        rw [Bool.and_eq_true] at hbal'
        obtain ⟨hne, hb⟩ := hbal'
        cases stack with
        | nil => simp at hne
        | cons p r =>
            have hb' : balancedAux rest (r.length) = true := by
              simpa using hb
            exact ih ((compiled.set (p - 1) (.BeginLoop (compiled.length + 1)))
              ++ [.EndLoop p]) r hb'
      rw [balancedAux_cons_other _ _ _ h7 h8] at hbal
      obtain ⟨res, hres⟩ := ih compiled stack hbal
      refine ⟨res, ?_⟩
      simp only [translateAux]
      rw [if_neg h1, if_neg h2, if_neg h3, if_neg h4, if_neg h5, if_neg h6,
        if_neg h7, if_neg h8]
      exact hres

theorem translateAux_close : ∀ (cs : List Char) (compiled : CompiledCode)
    (stack : List Nat), closedEarly cs stack.length = true →
    translateAux cs compiled stack = .error .UnmatchedCloseError := by
  intro cs
  induction cs with
  | nil =>
      intro compiled stack hce
      simp [closedEarly] at hce
  | cons c rest ih =>
      intro compiled stack hce
      by_cases h1 : c = '>'
      · subst h1
        rw [closedEarly_cons_other _ _ _ (by decide) (by decide)] at hce
        exact ih _ stack hce
      by_cases h2 : c = '<'
      · subst h2
        rw [closedEarly_cons_other _ _ _ (by decide) (by decide)] at hce
        exact ih _ stack hce
      by_cases h3 : c = '+'
      · subst h3
        rw [closedEarly_cons_other _ _ _ (by decide) (by decide)] at hce
        exact ih _ stack hce
      by_cases h4 : c = '-'
      · subst h4
        rw [closedEarly_cons_other _ _ _ (by decide) (by decide)] at hce
        exact ih _ stack hce
      by_cases h5 : c = '.'
      · subst h5
        rw [closedEarly_cons_other _ _ _ (by decide) (by decide)] at hce
        exact ih _ stack hce
      by_cases h6 : c = ','
      · subst h6
        rw [closedEarly_cons_other _ _ _ (by decide) (by decide)] at hce
        exact ih _ stack hce
      by_cases h7 : c = '['
      · subst h7
        have hce' : closedEarly rest (((compiled.length + 1) :: stack).length) = true := by
          simpa using hce
        exact ih (compiled ++ [.BeginLoop 0]) ((compiled.length + 1) :: stack) hce'
      by_cases h8 : c = ']'
      · subst h8
        cases stack with
        | nil => rfl
        | cons p r =>
            have hce' : closedEarly rest (r.length) = true := by
              have h0 : ((r.length + 1 == 0) || closedEarly rest (r.length + 1 - 1)) = true := by
                simpa [closedEarly] using hce
              simpa using h0
            exact ih ((compiled.set (p - 1) (.BeginLoop (compiled.length + 1)))
              ++ [.EndLoop p]) r hce'
      rw [closedEarly_cons_other _ _ _ h7 h8] at hce
      have hres := ih compiled stack hce
      simp only [translateAux]
      rw [if_neg h1, if_neg h2, if_neg h3, if_neg h4, if_neg h5, if_neg h6,
        if_neg h7, if_neg h8]
      exact hres

theorem translateAux_open : ∀ (cs : List Char) (compiled : CompiledCode)
    (stack : List Nat), closedEarly cs stack.length = false →
    balancedAux cs stack.length = false →
    translateAux cs compiled stack = .error .UnmatchedOpenError := by
  intro cs
  induction cs with
  | nil =>
      intro compiled stack hce hbal
      cases stack with
      | nil => simp [balancedAux] at hbal
      | cons p r => rfl
  | cons c rest ih =>
      intro compiled stack hce hbal
      by_cases h1 : c = '>'
      · subst h1
        rw [closedEarly_cons_other _ _ _ (by decide) (by decide)] at hce
        rw [balancedAux_cons_other _ _ _ (by decide) (by decide)] at hbal
        exact ih _ stack hce hbal
      by_cases h2 : c = '<'
      · subst h2
        rw [closedEarly_cons_other _ _ _ (by decide) (by decide)] at hce
        rw [balancedAux_cons_other _ _ _ (by decide) (by decide)] at hbal
        exact ih _ stack hce hbal
      by_cases h3 : c = '+'
      · subst h3
        rw [closedEarly_cons_other _ _ _ (by decide) (by decide)] at hce
        rw [balancedAux_cons_other _ _ _ (by decide) (by decide)] at hbal
        exact ih _ stack hce hbal
      by_cases h4 : c = '-'
      · subst h4
        rw [closedEarly_cons_other _ _ _ (by decide) (by decide)] at hce
        rw [balancedAux_cons_other _ _ _ (by decide) (by decide)] at hbal
        exact ih _ stack hce hbal
      by_cases h5 : c = '.'
      · subst h5
        rw [closedEarly_cons_other _ _ _ (by decide) (by decide)] at hce
        rw [balancedAux_cons_other _ _ _ (by decide) (by decide)] at hbal
        exact ih _ stack hce hbal
      by_cases h6 : c = ','
      · subst h6
        rw [closedEarly_cons_other _ _ _ (by decide) (by decide)] at hce
        rw [balancedAux_cons_other _ _ _ (by decide) (by decide)] at hbal
        exact ih _ stack hce hbal
      by_cases h7 : c = '['
      · subst h7
        have hce' : closedEarly rest (((compiled.length + 1) :: stack).length) = false := by
          simpa using hce
        have hbal' : balancedAux rest (((compiled.length + 1) :: stack).length) = false := by
          simpa using hbal
        exact ih (compiled ++ [.BeginLoop 0]) ((compiled.length + 1) :: stack) hce' hbal'
      by_cases h8 : c = ']'
      · subst h8
        cases stack with
        | nil => simp [closedEarly] at hce
        | cons p r =>
            have hce' : closedEarly rest (r.length) = false := by
              have h0 : ((r.length + 1 == 0) || closedEarly rest (r.length + 1 - 1)) = false := by
                simpa [closedEarly] using hce
              simpa using h0
            have hbal' : balancedAux rest (r.length) = false := by
              have h0 : ((r.length + 1 != 0) && balancedAux rest (r.length + 1 - 1)) = false := by
                simpa [balancedAux] using hbal
              simpa using h0
            exact ih ((compiled.set (p - 1) (.BeginLoop (compiled.length + 1)))
              ++ [.EndLoop p]) r hce' hbal'
      rw [closedEarly_cons_other _ _ _ h7 h8] at hce
      rw [balancedAux_cons_other _ _ _ h7 h8] at hbal
      have hres := ih compiled stack hce hbal
      simp only [translateAux]
      rw [if_neg h1, if_neg h2, if_neg h3, if_neg h4, if_neg h5, if_neg h6,
        if_neg h7, if_neg h8]
      exact hres

/-- C1 (amended): for every source whose recognized symbols are balanced,
translation succeeds, and the produced targets are 1-based partner
positions: for every loop instruction at `i` with target `t`, the
matching partner sits at `t - 1` and its target is `i + 1`
(`seq[seq[i].target - 1].target == i + 1`), not the claimed
`seq[seq[i].target].target == i`. -/
theorem c1_targets_one_based (s : List Char)
    (hbal : balancedAux (s.filter isSymbol) 0 = true) :
    ∃ res, translateProgram s = .ok res ∧ MutualTargets1 res := by
  obtain ⟨res, hres⟩ := translateAux_ok (s.filter isSymbol) [] [] (by simpa using hbal)
  exact ⟨res, hres, resolved_mutualTargets1 res (translateProgram_resolved s res hres)⟩

/-- Witness for C1 at the balanced program `"[]"`. -/
theorem c1_targets_one_based_witness :
    balancedAux (['[', ']'].filter isSymbol) 0 = true ∧
    ∃ res, translateProgram ['[', ']'] = .ok res ∧ MutualTargets1 res :=
  ⟨rfl, c1_targets_one_based ['[', ']'] rfl⟩

/-- C4: translating `"]"` fails with `UnmatchedCloseError` and `"["`
with `UnmatchedOpenError`; in general the translation of `s` fails with
`UnmatchedCloseError` exactly when some `']'` of the filtered stream is
scanned with an empty pending stack (depth 0), fails with
`UnmatchedOpenError` exactly when that never happens but the scan ends
at nonzero depth, and succeeds whenever the recognized symbols are
balanced. -/
theorem c4_translate_error_classification :
    translateProgram [']'] = .error .UnmatchedCloseError ∧
    translateProgram ['['] = .error .UnmatchedOpenError ∧
    ∀ s : List Char,
      (translateProgram s = .error .UnmatchedCloseError ↔
        closedEarly (s.filter isSymbol) 0 = true) ∧
      (translateProgram s = .error .UnmatchedOpenError ↔
        closedEarly (s.filter isSymbol) 0 = false ∧
          balancedAux (s.filter isSymbol) 0 = false) ∧
      (balancedAux (s.filter isSymbol) 0 = true →
        ∃ res, translateProgram s = .ok res) := by
  refine ⟨rfl, rfl, ?_⟩
  intro s
  refine ⟨⟨?_, ?_⟩, ⟨?_, ?_⟩, ?_⟩
  · intro h
    cases hcv : closedEarly (s.filter isSymbol) 0
    · exfalso
      cases hbv : balancedAux (s.filter isSymbol) 0
      · have hO : translateProgram s = .error .UnmatchedOpenError :=
          translateAux_open (s.filter isSymbol) [] [] (by simpa using hcv)
            (by simpa using hbv)
        rw [h] at hO
        simp at hO
      · obtain ⟨res, hres⟩ := translateAux_ok (s.filter isSymbol) [] []
          (by simpa using hbv)
        have hres' : translateProgram s = .ok res := hres
        rw [h] at hres'
        exact Except.noConfusion hres'
    · rfl
  · intro h
    exact translateAux_close (s.filter isSymbol) [] [] (by simpa using h)
  · intro h
    constructor
    · cases hcv : closedEarly (s.filter isSymbol) 0
      · rfl
      · exfalso
        have hC : translateProgram s = .error .UnmatchedCloseError :=
          translateAux_close (s.filter isSymbol) [] [] (by simpa using hcv)
        rw [h] at hC
        simp at hC
    · cases hbv : balancedAux (s.filter isSymbol) 0
      · rfl
      · exfalso
        obtain ⟨res, hres⟩ := translateAux_ok (s.filter isSymbol) [] []
          (by simpa using hbv)
        have hres' : translateProgram s = .ok res := hres
        rw [h] at hres'
        exact Except.noConfusion hres'
  · rintro ⟨h1, h2⟩
    exact translateAux_open (s.filter isSymbol) [] [] (by simpa using h1)
      (by simpa using h2)
  · intro hbal
    obtain ⟨res, hres⟩ := translateAux_ok (s.filter isSymbol) [] [] (by simpa using hbal)
    exact ⟨res, hres⟩

/-- Witness for C4: the balanced program `"+[-]"` translates successfully. -/
theorem c4_translate_error_classification_witness :
    ∃ res, translateProgram ['+', '[', '-', ']'] = .ok res :=
  (c4_translate_error_classification.2.2 ['+', '[', '-', ']']).2.2 rfl

/-- C3 (amended): executing an `EndLoop t` of any translated program
with a nonzero current cell sets the instruction pointer to `t - 1` and
then advances it by 1, so the next instruction executed is the one at
index `t` — the instruction immediately AFTER the matching `BeginLoop`,
which sits at index `t - 1` (targets are 1-based partner positions) —
with no other state change; with a zero current cell the pointer simply
advances by 1 and nothing else changes. -/
theorem c3_end_loop_reenters_after_begin (src : List Char) (code : CompiledCode)
    (ctx : Interpreter) (t : Nat)
    (htr : translateProgram src = .ok code)
    (hip : ctx.instruction_pointer < code.length)
    (hins : next_instruction code ctx = .EndLoop t) :
    (current_memory ctx ≠ 0 →
      step code ctx = .ok { ctx with instruction_pointer := t } ∧
      1 ≤ t ∧ t - 1 < ctx.instruction_pointer ∧
      List.getD code (t - 1) .Right = .BeginLoop (ctx.instruction_pointer + 1)) ∧
    (current_memory ctx = 0 →
      step code ctx = .ok { ctx with instruction_pointer := ctx.instruction_pointer + 1 }) := by
  have hres := translateProgram_resolved src code htr
  obtain ⟨-, he⟩ := hres ctx.instruction_pointer hip
  obtain ⟨h1, h2, h3⟩ := he t hins
  constructor
  · intro h0
    refine ⟨?_, h1, h2, h3⟩
    unfold step
    rw [hins]
    show Except.ok (advance (if current_memory ctx ≠ 0 then
      { ctx with instruction_pointer := t - 1 } else ctx)) = _
    rw [if_pos h0]
    show Except.ok { ctx with instruction_pointer := t - 1 + 1 } = _
    rw [Nat.sub_add_cancel h1]
  · intro h0
    unfold step
    rw [hins]
    show Except.ok (advance (if current_memory ctx ≠ 0 then
      { ctx with instruction_pointer := t - 1 } else ctx)) = _
    rw [if_neg (by omega)]
    rfl

/-- Witness for C3 at `codeCountdown` in state `ctxCountdown`: the
`EndLoop 3` at index 4 steps to instruction pointer 3, one past the
matching `BeginLoop 5` at index 2. -/
theorem c3_end_loop_reenters_after_begin_witness :
    step codeCountdown ctxCountdown = .ok { ctxCountdown with instruction_pointer := 3 } ∧
    1 ≤ 3 ∧ 3 - 1 < 4 ∧
    List.getD codeCountdown 2 .Right = .BeginLoop 5 :=
  (c3_end_loop_reenters_after_begin progCountdown codeCountdown ctxCountdown 3
    rfl (by decide) rfl).1 (by decide)
